import Mathlib

/-!
Verification of the es5-generators repository (Generator.js and the variant in
src/unnamed/part_001) against its natural-language specification.

The JavaScript runtime relevant to this library is single-threaded with a FIFO
timer queue: the `Generator` constructor body runs synchronously in the caller,
and every `setTimeout(f, 1)` call appends `f` to the timer queue, which is
drained in scheduling order only after the current synchronous execution (the
constructor and the caller registering listeners) has finished.  We embed a
Generator run as the ordered list of dispatched events; a listener registered
before control is yielded observes exactly this list.
-/

namespace ES5Gen

/-- Event dispatched by a Generator to its listener registries: an item
dispatch to the emit listeners, an error dispatch to the catch listeners, or a
completion dispatch to the done listeners (part_001 lines 33-49). -/
inductive Ev (α ε : Type) where
  | emit (a : α)
  | fault (e : ε)
  | done
deriving DecidableEq

/-- The event is a completion dispatch. -/
def Ev.isDone {α ε : Type} : Ev α ε → Bool
  | .done => true
  | _ => false

/-- The event is a fault dispatch. -/
def Ev.isFault {α ε : Type} : Ev α ε → Bool
  | .fault _ => true
  | _ => false

/-- The item carried by an emit dispatch, if any. -/
def Ev.emitted {α ε : Type} : Ev α ε → Option α
  | .emit a => some a
  | _ => none

/-- The error carried by a fault dispatch, if any. -/
def Ev.faulted {α ε : Type} : Ev α ε → Option ε
  | .fault e => some e
  | _ => none

/-- Items delivered to the emit listeners, in dispatch order. -/
def emittedItems {α ε : Type} (t : List (Ev α ε)) : List α :=
  t.filterMap Ev.emitted

/-- Errors delivered to the catch listeners, in dispatch order. -/
def faultErrors {α ε : Type} (t : List (Ev α ε)) : List ε :=
  t.filterMap Ev.faulted

/-- The part of the trace strictly after the first completion dispatch. -/
def afterFirstDone {α ε : Type} (t : List (Ev α ε)) : List (Ev α ε) :=
  (t.dropWhile (fun e => !e.isDone)).drop 1

/-- One call an ES5-style producer body makes on the handles it is given
(`cb(done, reject, emit)`, part_001 line 105), or a synchronous throw out of
the producer body. -/
inductive Cmd (α ε : Type) where
  | emit (a : α)
  | reject (e : ε)
  | done
  | throwErr (e : ε)
deriving DecidableEq

/-- The command is a synchronous throw. -/
def Cmd.isThrow {α ε : Type} : Cmd α ε → Bool
  | .throwErr _ => true
  | _ => false

/-- The event dispatched for one producer call: emit calls dispatch to the
emit listeners, reject calls to the catch listeners, done calls to the done
listeners (part_001 lines 33-49); a throw dispatches nothing. -/
def Cmd.ev {α ε : Type} : Cmd α ε → Option (Ev α ε)
  | .emit a => some (.emit a)
  | .reject e => some (.fault e)
  | .done => some (.done)
  | .throwErr _ => none

/-- Run of the ES5 producer route (part_001 line 105 and Generator.js line
100): the producer body executes its calls in order; each call schedules the
corresponding dispatch; `cb(done, reject, emit)` is wrapped in no try/catch,
so a synchronous throw aborts the rest of the producer body and propagates out
uncaught (second component), while dispatches already scheduled still fire.
Result: (dispatched events in order, escaped exception if any). -/
def runProducer {α ε : Type} : List (Cmd α ε) → List (Ev α ε) × Option ε
  | [] => ([], none)
  | .emit a :: rest =>
    let r := runProducer rest
    (.emit a :: r.1, r.2)
  | .reject e :: rest =>
    let r := runProducer rest
    (.fault e :: r.1, r.2)
  | .done :: rest =>
    let r := runProducer rest
    (.done :: r.1, r.2)
  | .throwErr e :: _ => ([], some e)

/-- When in the run each piece of code executes, measured in scheduler ticks:
tick 0 is the synchronous execution of the constructor and of the caller that
registers listeners; tick 1 is the first drain of the timer queue. -/
structure Timing where
  producerTick : Nat
  dispatchTicks : List Nat
deriving DecidableEq

/-- Timing of the part_001 variant for the ES5 producer route: the constructor
body calls `cb(done, reject, emit)` directly (line 105), so the producer runs
at tick 0, during construction; each of the done/reject/emit handles wraps its
dispatch in `setTimeout(..., 1)` (lines 33-49), so every dispatch happens at
tick 1. -/
def part001Timing {α ε : Type} (cmds : List (Cmd α ε)) : Timing :=
  { producerTick := 0
    dispatchTicks := List.replicate (runProducer cmds).1.length 1 }

/-- Timing of the Generator.js variant: the whole classification and producer
invocation is wrapped in a single `setTimeout(..., 1)` (lines 60-101), so the
producer runs at tick 1; its done/reject/emit handles dispatch synchronously
(lines 42-52), in that same tick. -/
def generatorJsTiming {α ε : Type} (cmds : List (Cmd α ε)) : Timing :=
  { producerTick := 1
    dispatchTicks := List.replicate (runProducer cmds).1.length 1 }

/-- Dispatch phase of the part_001 array adapter: the scheduled queue is
processed in order; dispatching an emit runs the item listener, which may
invoke the cancellation hook passed with the item, setting the adapter's
`cancelled` flag (lines 83-85).  The parameter `cancelOn` says on which items
the listener invokes the hook.  Nothing in the array branch ever reads the
flag, so it is threaded through but consulted by no step. -/
def arrayDispatch {α ε : Type} (cancelOn : α → Bool) :
    Bool → List (Ev α ε) → List (Ev α ε)
  | _, [] => []
  | cancelled, .emit a :: rest =>
    .emit a :: arrayDispatch cancelOn (cancelled || cancelOn a) rest
  | cancelled, e :: rest => e :: arrayDispatch cancelOn cancelled rest

/-- Run of the part_001 array adapter (lines 78-91): the constructor loop runs
synchronously at tick 0 and schedules, in element order, one emit dispatch per
element and then one done dispatch, each via `setTimeout(..., 1)`; only then
does the timer queue run, dispatching the queue to the listeners while the
cancellation flag evolves as the listener invokes hooks. -/
def arrayRun {α ε : Type} (items : List α) (cancelOn : α → Bool) :
    List (Ev α ε) :=
  arrayDispatch cancelOn false (items.map Ev.emit ++ [Ev.done])

/-- Run of the part_001 promise adapter (lines 95-101): the constructor
attaches only a fulfillment handler, `cb.then(function(result) { emit(result,
function() { }); done(); })`.  On fulfillment it emits the resolved value once
and completes; no rejection handler is attached, so a rejected source produces
no dispatch at all. -/
def promiseRun {α ε : Type} : Except ε α → List (Ev α ε)
  | .ok v => [.emit v, .done]
  | .error _ => []

theorem arrayDispatch_eq {α ε : Type} (cancelOn : α → Bool) :
    ∀ (c : Bool) (q : List (Ev α ε)), arrayDispatch cancelOn c q = q := by
  intro c q
  induction q generalizing c with
  | nil => rfl
  | cons e rest ih =>
    cases e <;> simp [arrayDispatch, ih]

theorem arrayRun_eq {α ε : Type} (items : List α) (cancelOn : α → Bool) :
    arrayRun (ε := ε) items cancelOn = items.map Ev.emit ++ [Ev.done] := by
  simp [arrayRun, arrayDispatch_eq]

theorem emittedItems_map_emit {α ε : Type} (items : List α) :
    emittedItems (ε := ε) (items.map Ev.emit) = items := by
  induction items with
  | nil => rfl
  | cons a rest ih => simp [emittedItems, Ev.emitted] at ih ⊢; exact ih

theorem emittedItems_append {α ε : Type} (s t : List (Ev α ε)) :
    emittedItems (s ++ t) = emittedItems s ++ emittedItems t := by
  simp [emittedItems]

/-- C1: for every finite array S passed to the part_001 Generator constructor
(array branch, lines 78-91), and whatever cancellation behavior the item
listener has, a listener registered before yielding control observes exactly
the elements of S in original order, then exactly one completion dispatch, and
no item dispatch occurs after the completion. -/
theorem array_construct_emits_in_order_then_completes {α ε : Type}
    (S : List α) (cancelOn : α → Bool) :
    emittedItems (arrayRun (ε := ε) S cancelOn) = S ∧
    (arrayRun (ε := ε) S cancelOn).countP Ev.isDone = 1 ∧
    emittedItems (afterFirstDone (arrayRun (ε := ε) S cancelOn)) = [] := by
  rw [arrayRun_eq]
  refine ⟨?_, ?_, ?_⟩
  · rw [emittedItems_append, emittedItems_map_emit]
    simp [emittedItems, Ev.emitted]
  · rw [List.countP_append]
    have h1 : (S.map (Ev.emit (ε := ε))).countP Ev.isDone = 0 := by
      induction S with
      | nil => rfl
      | cons a rest ih => simp [Ev.isDone]
    simp [h1, Ev.isDone]
  · have hdrop : (S.map (Ev.emit (ε := ε)) ++ [Ev.done]).dropWhile
        (fun e => !e.isDone) = [Ev.done] := by
      induction S with
      | nil => rfl
      | cons a rest ih => simp [List.dropWhile, Ev.isDone]
    simp [afterFirstDone, hdrop]
    rfl

/-- C2, counterexample: in the part_001 variant the producer is invoked
synchronously during construction — `cb(done, reject, emit)` runs in the
constructor body at tick 0, not after a one-tick deferral — and every single
event dispatch is deferred a further tick by its own `setTimeout(..., 1)`, a
per-item deferral after the producer runs.  Concretely, for the producer that
emits 0 and completes, the producer tick is 0 (not positive) and both
dispatches happen at tick 1, a later tick than the producer. -/
theorem part001_producer_runs_synchronously :
    ¬ 0 < (part001Timing (ε := String) [Cmd.emit (0 : Nat), Cmd.done]).producerTick ∧
    (part001Timing (ε := String) [Cmd.emit (0 : Nat), Cmd.done]).dispatchTicks = [1, 1] ∧
    (part001Timing (ε := String) [Cmd.emit (0 : Nat), Cmd.done]).dispatchTicks
      ≠ List.replicate 2
          (part001Timing (ε := String) [Cmd.emit (0 : Nat), Cmd.done]).producerTick := by
  refine ⟨by decide, by decide, by decide⟩

/-- C2, amended: in the Generator.js variant the producer runs only inside the
single deferred tick (tick 1) and its dispatches happen synchronously in that
same tick with no further deferral; in the part_001 variant the producer runs
synchronously at construction (tick 0) and each individual dispatch is
deferred one tick.  In both variants every dispatch happens at tick 1, strictly
after tick 0 where the caller registers its listeners, so every listener
registered between construction and yielding control observes the first
event. -/
theorem deferred_dispatch_after_registration {α ε : Type} (cmds : List (Cmd α ε)) :
    (generatorJsTiming cmds).producerTick = 1 ∧
    (∀ t ∈ (generatorJsTiming cmds).dispatchTicks,
      t = (generatorJsTiming cmds).producerTick) ∧
    (part001Timing cmds).producerTick = 0 ∧
    (∀ t ∈ (part001Timing cmds).dispatchTicks, t = 1) ∧
    (∀ t ∈ (part001Timing cmds).dispatchTicks, 0 < t) ∧
    (∀ t ∈ (generatorJsTiming cmds).dispatchTicks, 0 < t) := by
  refine ⟨rfl, ?_, rfl, ?_, ?_, ?_⟩ <;>
    · intro t ht
      simp [generatorJsTiming, part001Timing] at ht ⊢
      omega

/-- C4, counterexample: terminal events are not mutually exclusive and not
at-most-once.  A producer body that calls reject and then done makes the
part_001 Stream dispatch both a fault (to the catch listeners) and a
completion (to the done listeners): both terminal events fire on one Stream. -/
theorem fault_and_completion_both_fire :
    ((runProducer [Cmd.reject "e", Cmd.done] : List (Ev Nat String) × Option String).1.any
        Ev.isFault = true) ∧
    ((runProducer [Cmd.reject "e", Cmd.done] : List (Ev Nat String) × Option String).1.any
        Ev.isDone = true) := by
  refine ⟨by decide, by decide⟩

theorem runProducer_events {α ε : Type} (cmds : List (Cmd α ε)) :
    (runProducer cmds).1 = (cmds.takeWhile (fun c => !c.isThrow)).filterMap Cmd.ev := by
  induction cmds with
  | nil => rfl
  | cons c rest ih =>
    cases c <;>
      simp [runProducer, Cmd.isThrow, List.takeWhile, Cmd.ev, ih]

theorem runProducer_escape {α ε : Type} (cmds : List (Cmd α ε)) :
    (runProducer cmds).2
      = (cmds.dropWhile (fun c => !c.isThrow)).head?.bind
          (fun c => match c with | .throwErr e => some e | _ => none) := by
  induction cmds with
  | nil => rfl
  | cons c rest ih =>
    cases c <;>
      simp [runProducer, Cmd.isThrow, List.dropWhile, ih]

theorem faultErrors_filterMap_ev {α ε : Type} (l : List (Cmd α ε)) :
    faultErrors (l.filterMap Cmd.ev)
      = l.filterMap (fun c => match c with | .reject e => some e | _ => none) := by
  induction l with
  | nil => rfl
  | cons c rest ih =>
    cases c <;> simp [Cmd.ev, faultErrors, Ev.faulted] at ih ⊢ <;> exact ih

theorem countP_isDone_filterMap_ev {α ε : Type} (l : List (Cmd α ε)) :
    (l.filterMap (Cmd.ev (α := α) (ε := ε))).countP Ev.isDone
      = l.countP (fun c => match c with | .done => true | _ => false) := by
  induction l with
  | nil => rfl
  | cons c rest ih =>
    cases c <;> simp [Cmd.ev, Ev.isDone] at ih ⊢ <;> omega

/-- C4, amended: the routing that does hold.  Explicit fault calls are
dispatched only to the fault listeners — the fault dispatches of a run are
exactly the reject calls the producer made before any synchronous throw, in
order — and completion dispatches are exactly the done calls made before any
throw, so a reject never reaches a completion listener and vice versa.  There
is, however, no enforcement that at most one terminal event fires, and a
synchronous throw is routed to no listener at all: it aborts the producer and
escapes the constructor as the uncaught exception, while calls made before the
throw are still dispatched. -/
theorem producer_routing {α ε : Type} (cmds : List (Cmd α ε)) :
    faultErrors (runProducer cmds).1
      = (cmds.takeWhile (fun c => !c.isThrow)).filterMap
          (fun c => match c with | .reject e => some e | _ => none) ∧
    ((runProducer cmds).1.countP Ev.isDone
      = (cmds.takeWhile (fun c => !c.isThrow)).countP
          (fun c => match c with | .done => true | _ => false)) ∧
    (runProducer cmds).1
      = (cmds.takeWhile (fun c => !c.isThrow)).filterMap Cmd.ev ∧
    (runProducer cmds).2
      = (cmds.dropWhile (fun c => !c.isThrow)).head?.bind
          (fun c => match c with | .throwErr e => some e | _ => none) := by
  refine ⟨?_, ?_, runProducer_events cmds, runProducer_escape cmds⟩
  · rw [runProducer_events cmds]
    exact faultErrors_filterMap_ev _
  · rw [runProducer_events cmds]
    exact countP_isDone_filterMap_ev _

/-- C9: behavior of the code at the failing input.  Constructing a part_001
Generator from the array [1,2,3] with an item listener that invokes the
cancellation hook on item 1 still dispatches all three items and then
completes: the hook sets the `cancelled` flag, but the array branch never
reads it, and the whole queue was in any case already scheduled at tick 0,
before any listener ran. -/
theorem array_cancellation_hook_has_no_effect :
    arrayRun (ε := String) [1, 2, 3] (fun a => decide (a = 1))
      = [Ev.emit 1, Ev.emit 2, Ev.emit 3, Ev.done] := by
  decide

/-- C5: behavior of the code at the failing input.  The part_001 promise
adapter (lines 95-101) emits the resolved value once then completes on
fulfillment, but attaches no rejection handler: a source rejected with
the error string boom yields an empty dispatch trace, so the Stream neither
faults nor completes. -/
theorem promise_rejection_is_not_wired :
    promiseRun (α := Nat) (Except.error "boom") = [] ∧
    promiseRun (α := Nat) (ε := String) (Except.ok 5)
      = [Ev.emit 5, Ev.done] := by
  exact ⟨rfl, rfl⟩

/-- Accumulation shared by Generator.prototype.then (part_001 lines 486-502)
and by the combinators that drain an input through it: a persistent emit
listener pushes every item into an ordered array, and the registered done
listener fires at the first completion dispatch with the array accumulated so
far.  Given the trace of events dispatched after registration, this returns
the accumulated array at the first completion, or none if no completion is
ever dispatched.  No catch listener is registered, so fault dispatches are
simply not observed. -/
def drainAux {α ε : Type} (acc : List α) : List (Ev α ε) → Option (List α)
  | [] => none
  | .emit a :: rest => drainAux (acc ++ [a]) rest
  | .fault _ :: rest => drainAux acc rest
  | .done :: _ => some acc

/-- Items accumulated by a then-style drain registered before the trace. -/
def drainThen {α ε : Type} (t : List (Ev α ε)) : List α → Option (List α) :=
  fun acc => drainAux acc t

/-- Settlement of the future returned by Generator.prototype.then (part_001
lines 486-502): on the first completion dispatch, the callback is applied to
the accumulated items inside try/catch — a normal return resolves the future,
a throw rejects it (modelled by the callback returning an Except).  If the
trace contains no completion dispatch the future never settles (none), since
then registers only an emit listener and a done listener. -/
def thenResult {α ε β : Type} (cb : List α → Except ε β) (t : List (Ev α ε)) :
    Option (Except ε β) :=
  (drainThen t []).map cb

theorem drainAux_no_done {α ε : Type} (t : List (Ev α ε))
    (h : ∀ e ∈ t, e.isDone = false) (acc : List α) : drainAux acc t = none := by
  induction t generalizing acc with
  | nil => rfl
  | cons e rest ih =>
    cases e with
    | emit a =>
      exact ih (fun x hx => h x (List.mem_cons_of_mem _ hx)) (acc ++ [a])
    | fault er =>
      exact ih (fun x hx => h x (List.mem_cons_of_mem _ hx)) acc
    | done =>
      have := h Ev.done (List.mem_cons_self _ _)
      simp [Ev.isDone] at this

theorem drainAux_first_done {α ε : Type} (pre : List (Ev α ε))
    (h : ∀ e ∈ pre, e.isDone = false) (post : List (Ev α ε)) (acc : List α) :
    drainAux acc (pre ++ Ev.done :: post) = some (acc ++ emittedItems pre) := by
  induction pre generalizing acc with
  | nil => simp [drainAux, emittedItems]
  | cons e rest ih =>
    cases e with
    | emit a =>
      have := ih (fun x hx => h x (List.mem_cons_of_mem _ hx)) (acc ++ [a])
      simp [drainAux, emittedItems, Ev.emitted] at this ⊢
      simp [this]
    | fault er =>
      have := ih (fun x hx => h x (List.mem_cons_of_mem _ hx)) acc
      simp [drainAux, emittedItems, Ev.emitted] at this ⊢
      simp [this]
    | done =>
      have := h Ev.done (List.mem_cons_self _ _)
      simp [Ev.isDone] at this

/-- C3, counterexample: then does not turn an upstream fault into a rejected
future.  On a Stream that faults with the error string boom and never
completes, the future returned by then never settles at all — in particular
it does not reject — because then registers no catch listener. -/
theorem then_does_not_reject_on_fault :
    thenResult (α := Nat) (fun items => Except.ok items.length)
        [Ev.fault "boom"]
      = (none : Option (Except String Nat)) := rfl

/-- C3, amended: then(cb) accumulates the items emitted after registration in
order and, at the first completion dispatch, settles its future with the
callback applied to that sequence — resolving on a normal return, rejecting on
a throw; but when the trace contains no completion dispatch (in particular
when the stream only faults), the future never settles. -/
theorem then_accumulates_and_settles_on_completion {α ε β : Type}
    (cb : List α → Except ε β) :
    (∀ (pre post : List (Ev α ε)), (∀ e ∈ pre, e.isDone = false) →
      thenResult cb (pre ++ Ev.done :: post) = some (cb (emittedItems pre))) ∧
    (∀ t : List (Ev α ε), (∀ e ∈ t, e.isDone = false) →
      thenResult cb t = none) := by
  constructor
  · intro pre post h
    simp [thenResult, drainThen, drainAux_first_done pre h post]
  · intro t h
    simp [thenResult, drainThen, drainAux_no_done t h]

/-- C3, witness: on a Stream emitting 1, 2, 3 then completing, the future
settles with the callback applied to the accumulated [1, 2, 3]. -/
theorem then_accumulates_witness :
    thenResult (fun items => Except.ok items.length)
        [Ev.emit 1, Ev.emit 2, Ev.emit 3, Ev.done]
      = some (Except.ok (3 : Nat) : Except String Nat) := by
  have h := (then_accumulates_and_settles_on_completion
      (fun items : List Nat => Except.ok (ε := String) items.length)).1
    [Ev.emit 1, Ev.emit 2, Ev.emit 3] [] (by decide)
  simpa using h

/-- Comparator used by Generator.exclude when none is passed (part_001 lines
210-214): strict equality of the two items. -/
def strictEq {α : Type} [DecidableEq α] (a b : α) : Bool := decide (a = b)

/-- Filtering loop of Generator.exclude (part_001 lines 229-246): for each
item of the big set in order, scan the small set and skip the item as soon as
the comparator accepts some small-set item; emit it otherwise. -/
def excludeFilter {α : Type} (cmp : α → α → Bool) (A B : List α) : List α :=
  A.filter (fun a => !(B.any (fun b => cmp a b)))

/-- Output event trace of Generator.exclude (part_001 lines 208-251): the
producer drains both inputs through then-style accumulators and joins them
with Promise.all, so it dispatches nothing at all until both inputs have
completed; once both are drained it emits the filtered items of the big set in
order and then completes. -/
def excludeOut {α ε : Type} (cmp : α → α → Bool) (tA tB : List (Ev α ε)) :
    List (Ev α ε) :=
  match drainThen tA [], drainThen tB [] with
  | some A, some B => (excludeFilter cmp A B).map Ev.emit ++ [Ev.done]
  | _, _ => []

theorem excludeFilter_eq_forall {α : Type} (cmp : α → α → Bool) (A B : List α) :
    excludeFilter cmp A B = A.filter (fun a => decide (∀ b ∈ B, cmp a b = false)) := by
  unfold excludeFilter
  apply List.filter_congr
  intro a _
  by_cases h : ∀ b ∈ B, cmp a b = false
  · have hany : B.any (fun b => cmp a b) = false := by
      simp only [List.any_eq_false]
      intro x hx
      simp [h x hx]
    simp [hany, h]
    exact h
  · have hex : ∃ b ∈ B, cmp a b = true := by
      push_neg at h
      obtain ⟨b, hb, hcmp⟩ := h
      exact ⟨b, hb, by simpa using hcmp⟩
    have hany : B.any (fun b => cmp a b) = true := List.any_eq_true.mpr hex
    simp [hany, h]

/-- C6: Generator.exclude joins only after both inputs complete — while either
input lacks a completion dispatch, exclude dispatches nothing at all — and
once both are drained it emits, preserving the big input's original order,
exactly those items of big for which no item of small satisfies the
comparator, then completes exactly once, with the completion as the last
dispatch.  The default comparator is strict equality. -/
theorem exclude_spec {α ε : Type} :
    (∀ (cmp : α → α → Bool) (tA tB : List (Ev α ε)) (A B : List α),
      drainThen tA [] = some A → drainThen tB [] = some B →
      emittedItems (excludeOut cmp tA tB)
          = A.filter (fun a => decide (∀ b ∈ B, cmp a b = false)) ∧
        (excludeOut cmp tA tB).countP Ev.isDone = 1 ∧
        (excludeOut cmp tA tB).getLast? = some Ev.done) ∧
    (∀ (cmp : α → α → Bool) (tA tB : List (Ev α ε)),
      drainThen tA [] = none ∨ drainThen tB [] = none →
      excludeOut cmp tA tB = []) := by
  constructor
  · intro cmp tA tB A B hA hB
    have hout : excludeOut cmp tA tB
        = (excludeFilter cmp A B).map Ev.emit ++ [Ev.done] := by
      simp [excludeOut, hA, hB]
    refine ⟨?_, ?_, ?_⟩
    · rw [hout, emittedItems_append, emittedItems_map_emit,
        excludeFilter_eq_forall]
      simp [emittedItems, Ev.emitted]
    · rw [hout, List.countP_append]
      have h1 : ((excludeFilter cmp A B).map (Ev.emit (ε := ε))).countP
          Ev.isDone = 0 := by
        simp [List.countP_eq_zero]
        intro a _
        simp [Ev.isDone]
      simp [h1, Ev.isDone]
    · rw [hout]
      simp
  · intro cmp tA tB h
    rcases h with h | h <;> simp [excludeOut, h]

/-- C6, witness: the example from the specification — exclude over Streams
constructed from [1, 2, 3] and [1, 3] with the default strict-equality
comparator emits exactly [2] and completes exactly once, completion last. -/
theorem exclude_spec_witness :
    emittedItems (excludeOut strictEq
        (arrayRun (ε := String) [1, 2, 3] (fun _ => false))
        (arrayRun (ε := String) [1, 3] (fun _ => false))) = [2] ∧
    (excludeOut strictEq
        (arrayRun (ε := String) [1, 2, 3] (fun _ => false))
        (arrayRun (ε := String) [1, 3] (fun _ => false))).countP Ev.isDone = 1 ∧
    (excludeOut strictEq
        (arrayRun (ε := String) [1, 2, 3] (fun _ => false))
        (arrayRun (ε := String) [1, 3] (fun _ => false))).getLast?
      = some Ev.done := by
  have h := (exclude_spec (α := Nat) (ε := String)).1 strictEq
    (arrayRun [1, 2, 3] (fun _ => false)) (arrayRun [1, 3] (fun _ => false))
    [1, 2, 3] [1, 3] (by decide) (by decide)
  refine ⟨?_, h.2.1, h.2.2⟩
  rw [h.1]
  decide

/-- Number of occurrences in l of items whose hash key is k. -/
def keyCount {α κ : Type} [DecidableEq κ] (h : α → κ) (k : κ) (l : List α) : Nat :=
  l.countP (fun a => decide (h a = k))

/-- The handleEmit closure of Generator.intersectByHash (part_001 lines
272-284), iterated over the arrival sequence: for each observed item, the
occurrence counter stored in the map under hasher(item) — zero when the key is
absent — is incremented, and the item is emitted exactly when the updated
counter equals the number of input generators.  Returns the emitted items in
order. -/
def ihGo {α κ : Type} [DecidableEq κ] (K : Nat) (h : α → κ) :
    (κ → Nat) → List α → List α
  | _, [] => []
  | m, a :: rest =>
    (if m (h a) + 1 = K then [a] else [])
      ++ ihGo K h (fun k => if k = h a then m (h a) + 1 else m k) rest

/-- Emissions of Generator.intersectByHash, starting from the empty map
(part_001 line 266). -/
def ihEmits {α κ : Type} [DecidableEq κ] (K : Nat) (h : α → κ) (arr : List α) :
    List α :=
  ihGo K h (fun _ => 0) arr

/-- One input generator of an intersection combinator, as the combinator
observes it: the items its persistent emit listener delivers, and whether the
input ever fires its completion. -/
structure GInput (α : Type) where
  items : List α
  completes : Bool
deriving DecidableEq

/-- Output event trace of Generator.intersectByHash (part_001 lines 263-307):
each arrival across the inputs is processed by handleEmit; the output
completes via Promise.all over one promise per input, each resolved by that
input's done listener (line 288), so the final completion dispatch happens
exactly when every input completes. -/
def ihOut {α κ ε : Type} [DecidableEq κ] (h : α → κ) (inputs : List (GInput α))
    (arrivals : List α) : List (Ev α ε) :=
  (ihEmits inputs.length h arrivals).map Ev.emit
    ++ (if inputs.all (fun g => g.completes) then [Ev.done] else [])


theorem ihGo_keyCount {α κ : Type} [DecidableEq κ] (K : Nat) (h : α → κ)
    (k : κ) :
    ∀ (arr : List α) (m : κ → Nat),
      keyCount h k (ihGo K h m arr)
        = if m k < K ∧ K ≤ m k + keyCount h k arr then 1 else 0 := by
  intro arr
  induction arr with
  | nil =>
    intro m
    have h0 : keyCount h k ([] : List α) = 0 := rfl
    rw [h0, if_neg (by omega)]
    rfl
  | cons a rest ih =>
    intro m
    simp only [keyCount] at ih ⊢
    simp only [ihGo, List.countP_append]
    rw [ih]
    by_cases hk : h a = k
    · subst hk
      have e1 : (if h a = h a then m (h a) + 1 else m (h a)) = m (h a) + 1 :=
        if_pos rfl
      have e2 : List.countP (fun x => decide (h x = h a))
          (if m (h a) + 1 = K then [a] else [])
          = if m (h a) + 1 = K then 1 else 0 := by
        by_cases h1 : m (h a) + 1 = K <;> simp [h1]
      have hcnt : List.countP (fun x => decide (h x = h a)) (a :: rest)
          = List.countP (fun x => decide (h x = h a)) rest + 1 := by
        simp [List.countP_cons]
      rw [e1, e2]
      simp only [hcnt]
      split_ifs <;> omega
    · have e1 : (if k = h a then m (h a) + 1 else m k) = m k :=
        if_neg (fun he => hk he.symm)
      have e2 : List.countP (fun a => decide (h a = k))
          (if m (h a) + 1 = K then [a] else []) = 0 := by
        by_cases h1 : m (h a) + 1 = K <;> simp [h1, hk]
      have hcnt : List.countP (fun a => decide (h a = k)) (a :: rest)
          = List.countP (fun a => decide (h a = k)) rest := by
        simp [List.countP_cons, hk]
      rw [e1, e2]
      simp only [hcnt]
      split_ifs <;> omega

theorem ihEmits_keyCount {α κ : Type} [DecidableEq κ] (K : Nat) (h : α → κ)
    (k : κ) (arr : List α) :
    keyCount h k (ihEmits K h arr)
      = if 0 < K ∧ K ≤ keyCount h k arr then 1 else 0 := by
  rw [ihEmits, ihGo_keyCount]
  split_ifs <;> omega

theorem ihGo_split {α κ : Type} [DecidableEq κ] (K : Nat) (h : α → κ) :
    ∀ (p q : List α) (m : κ → Nat),
      ihGo K h m (p ++ q)
        = ihGo K h m p ++ ihGo K h (fun k => m k + keyCount h k p) q := by
  intro p
  induction p with
  | nil =>
    intro q m
    have e : (fun k => m k + keyCount h k ([] : List α)) = m := by
      funext k
      have h0 : keyCount h k ([] : List α) = 0 := rfl
      rw [h0]
      omega
    rw [e]
    rfl
  | cons a p ih =>
    intro q m
    rw [List.cons_append, ihGo, ihGo, ih, List.append_assoc]
    have e : (fun k => (if k = h a then m (h a) + 1 else m k) + keyCount h k p)
        = (fun k => m k + keyCount h k (a :: p)) := by
      funext k
      by_cases hk : k = h a
      · subst hk
        rw [if_pos rfl]
        have hc : keyCount h (h a) (a :: p) = keyCount h (h a) p + 1 := by
          simp [keyCount, List.countP_cons]
        rw [hc]
        omega
      · rw [if_neg hk]
        have hc : keyCount h k (a :: p) = keyCount h k p := by
          have hne : ¬ h a = k := fun he => hk he.symm
          simp [keyCount, List.countP_cons, hne]
        rw [hc]
    rw [e]

/-- C7: for K input Streams, intersectByHash emits, per hash key, exactly one
item when the key reaches K total occurrences and none otherwise; the
emissions happen in arrival order, and an emission for a key has happened
within a prefix of the arrival sequence exactly when that prefix already holds
K occurrences of the key — i.e. the item goes out at the moment its counter
first reaches K.  The output Stream fires its completion exactly when all K
inputs have completed, at most once, and its emitted items are precisely the
handleEmit emissions. -/
theorem intersectByHash_spec {α κ ε : Type} [DecidableEq κ] (h : α → κ)
    (inputs : List (GInput α)) (arrivals : List α)
    (hK : 0 < inputs.length)
    (hperm : arrivals.Perm (inputs.map (fun g => g.items)).flatten) :
    (∀ k : κ,
      keyCount h k (ihEmits inputs.length h arrivals)
        = if inputs.length ≤ keyCount h k arrivals then 1 else 0) ∧
    (∀ p q : List α, arrivals = p ++ q →
      (ihEmits inputs.length h arrivals
          = ihEmits inputs.length h p
            ++ ihGo inputs.length h (fun k => keyCount h k p) q) ∧
      (∀ k : κ,
        ((ihEmits inputs.length h p).any (fun a => decide (h a = k)) = true
          ↔ inputs.length ≤ keyCount h k p))) ∧
    ((Ev.done (α := α) (ε := ε)) ∈ ihOut h inputs arrivals
      ↔ ∀ g ∈ inputs, g.completes = true) ∧
    (ihOut (ε := ε) h inputs arrivals).countP Ev.isDone ≤ 1 ∧
    emittedItems (ihOut (ε := ε) h inputs arrivals)
      = ihEmits inputs.length h arrivals := by
  refine ⟨?_, ?_, ?_, ?_, ?_⟩
  · intro k
    rw [ihEmits_keyCount]
    split_ifs with h1 h2 <;> simp_all
  · intro p q hpq
    constructor
    · subst hpq
      rw [ihEmits, ihGo_split]
      have e : (fun k => (0 : Nat) + keyCount h k p)
          = (fun k => keyCount h k p) := by
        funext k
        omega
      rw [← e]
      rfl
    · intro k
      have hc := ihEmits_keyCount inputs.length h k p
      constructor
      · intro hany
        rcases List.any_eq_true.mp hany with ⟨x, hx, hpx⟩
        have hpos : 0 < keyCount h k (ihEmits inputs.length h p) := by
          rw [keyCount]
          exact List.countP_pos_iff.mpr ⟨x, hx, hpx⟩
        rw [hc] at hpos
        by_contra hle
        simp [hle] at hpos
      · intro hle
        have h1 : keyCount h k (ihEmits inputs.length h p) = 1 := by
          rw [hc, if_pos ⟨hK, hle⟩]
        have hpos : 0 < keyCount h k (ihEmits inputs.length h p) := by omega
        rw [keyCount] at hpos
        rcases List.countP_pos_iff.mp hpos with ⟨x, hx, hpx⟩
        exact List.any_eq_true.mpr ⟨x, hx, hpx⟩
  · unfold ihOut
    by_cases hall : inputs.all (fun g => g.completes) = true
    · rw [if_pos hall]
      constructor
      · intro _ g hg
        exact List.all_eq_true.mp hall g hg
      · intro _
        exact List.mem_append.mpr (Or.inr (List.mem_singleton.mpr rfl))
    · rw [if_neg hall]
      constructor
      · intro hmem
        exfalso
        rw [List.append_nil] at hmem
        rcases List.mem_map.mp hmem with ⟨x, _, he⟩
        exact Ev.noConfusion he
      · intro hcomp
        exact absurd (List.all_eq_true.mpr hcomp) hall
  · unfold ihOut
    rw [List.countP_append]
    have h1 : ((ihEmits inputs.length h arrivals).map
        (Ev.emit (ε := ε))).countP Ev.isDone = 0 := by
      rw [List.countP_eq_zero]
      intro e he
      rcases List.mem_map.mp he with ⟨x, _, hx⟩
      simp [← hx, Ev.isDone]
    rw [h1]
    split_ifs <;> simp [Ev.isDone]
  · unfold ihOut
    rw [emittedItems_append, emittedItems_map_emit]
    split_ifs <;> simp [emittedItems, Ev.emitted]

/-- C7, witness: the specification's own example — two inputs with item ids
[6,1,2,3] and [2,3,5,6], hashed by the id itself.  Key 2 occurs twice across
the arrivals, so exactly one item with key 2 is emitted; key 1 occurs once, so
no item with key 1 is emitted; both inputs complete, so the output completes. -/
theorem intersectByHash_spec_witness :
    keyCount (fun a : Nat => a) 2
        (ihEmits 2 (fun a : Nat => a) [6, 1, 2, 3, 2, 3, 5, 6]) = 1 ∧
    keyCount (fun a : Nat => a) 1
        (ihEmits 2 (fun a : Nat => a) [6, 1, 2, 3, 2, 3, 5, 6]) = 0 ∧
    (Ev.done (α := Nat) (ε := String))
      ∈ ihOut (fun a : Nat => a)
          [⟨[6, 1, 2, 3], true⟩, ⟨[2, 3, 5, 6], true⟩]
          [6, 1, 2, 3, 2, 3, 5, 6] := by
  have h := intersectByHash_spec (ε := String) (fun a : Nat => a)
    [⟨[6, 1, 2, 3], true⟩, ⟨[2, 3, 5, 6], true⟩]
    [6, 1, 2, 3, 2, 3, 5, 6] (by decide) (by decide)
  refine ⟨?_, ?_, ?_⟩
  · have h2 := h.1 2
    simpa using h2
  · have h1 := h.1 1
    simpa using h1
  · exact (h.2.2.1).mpr (by decide)

/-- C10: the occurrence counter of intersectByHash counts occurrences globally
across all arrivals rather than per distinct input: whenever one single input
already contains at least K occurrences of a hash key, an item with that key
is emitted, whatever the other inputs contain. -/
theorem intersectByHash_counts_globally {α κ : Type} [DecidableEq κ]
    (h : α → κ) (inputs : List (GInput α)) (arrivals : List α)
    (hK : 0 < inputs.length)
    (hperm : arrivals.Perm (inputs.map (fun g => g.items)).flatten)
    (g : GInput α) (hg : g ∈ inputs) (k : κ)
    (hcnt : inputs.length ≤ keyCount h k g.items) :
    (ihEmits inputs.length h arrivals).any (fun a => decide (h a = k)) = true := by
  have harr : keyCount h k arrivals
      = keyCount h k (inputs.map (fun g => g.items)).flatten := by
    simpa [keyCount] using hperm.countP_eq (fun a => decide (h a = k))
  have hle : keyCount h k g.items ≤ keyCount h k arrivals := by
    rw [harr]
    simp only [keyCount]
    rw [List.countP_flatten]
    have hmem : g.items.countP (fun a => decide (h a = k))
        ∈ ((inputs.map (fun g => g.items)).map
            (List.countP (fun a => decide (h a = k)))) := by
      simp only [List.map_map, List.mem_map]
      exact ⟨g, hg, rfl⟩
    calc keyCount h k g.items
        = g.items.countP (fun a => decide (h a = k)) := rfl
      _ ≤ _ := List.single_le_sum (fun x _ => Nat.zero_le x) _ hmem
  have h1 : keyCount h k (ihEmits inputs.length h arrivals) = 1 := by
    rw [ihEmits_keyCount, if_pos ⟨hK, le_trans hcnt hle⟩]
  have hpos : 0 < keyCount h k (ihEmits inputs.length h arrivals) := by omega
  rw [keyCount] at hpos
  rcases List.countP_pos_iff.mp hpos with ⟨x, hx, hpx⟩
  exact List.any_eq_true.mpr ⟨x, hx, hpx⟩

/-- C10, witness: with two inputs [5, 5] and [7], the key 5 reaches the
counter value 2 entirely within the first input, and an item with key 5 is
emitted even though 5 never appears in the other input. -/
theorem intersectByHash_counts_globally_witness :
    (ihEmits 2 (fun a : Nat => a) [5, 5, 7]).any
        (fun a => decide (a = 5)) = true := by
  exact intersectByHash_counts_globally (fun a : Nat => a)
    [⟨[5, 5], true⟩, ⟨[7], true⟩] [5, 5, 7] (by decide) (by decide)
    ⟨[5, 5], true⟩ (by decide) 5 (by decide)

/-- One record of the distinctItems array of Generator.intersectByComparison
(part_001 lines 349-353): the first observed occurrence of an equivalence
class, its observation count, and whether it has been emitted. -/
structure DistinctItem (α : Type) where
  item : α
  count : Nat
  emitted : Bool
deriving DecidableEq

/-- The handleEmit linear scan of Generator.intersectByComparison (part_001
lines 327-361) for one observed item: scan the records in order for the first
whose stored item the comparator matches; on a match increment its count and,
unless already emitted, emit the stored item when the count reaches the number
of inputs K; on no match append a fresh record with count 1, emitting
immediately when K equals 1.  Returns (updated records, emissions). -/
def icScan {α : Type} (cmp : α → α → Bool) (K : Nat) (a : α) :
    List (DistinctItem α) → List (DistinctItem α) × List α
  | [] =>
    if 1 = K then ([⟨a, 1, true⟩], [a]) else ([⟨a, 1, false⟩], [])
  | d :: ds =>
    if cmp d.item a then
      if d.emitted = false ∧ d.count + 1 = K then
        (⟨d.item, d.count + 1, true⟩ :: ds, [d.item])
      else
        (⟨d.item, d.count + 1, d.emitted⟩ :: ds, [])
    else
      let r := icScan cmp K a ds
      (d :: r.1, r.2)

/-- The handleEmit scan iterated over the arrival sequence; emissions in
order. -/
def icGo {α : Type} (cmp : α → α → Bool) (K : Nat) :
    List (DistinctItem α) → List α → List α
  | _, [] => []
  | ds, a :: rest =>
    let r := icScan cmp K a ds
    r.2 ++ icGo cmp K r.1 rest

/-- Emissions of Generator.intersectByComparison, starting from the empty
record list (part_001 line 322). -/
def icEmits {α : Type} (cmp : α → α → Bool) (K : Nat) (arr : List α) :
    List α :=
  icGo cmp K [] arr

/-- Output event trace of Generator.intersectByComparison (part_001 lines
318-382): the same Promise.all completion structure as intersectByHash — one
handler per input, settled when that input completes (line 365), so the final
completion dispatch happens exactly when every input completes. -/
def icOut {α ε : Type} (cmp : α → α → Bool) (inputs : List (GInput α))
    (arrivals : List α) : List (Ev α ε) :=
  (icEmits cmp inputs.length arrivals).map Ev.emit
    ++ (if inputs.all (fun g => g.completes) then [Ev.done] else [])

theorem icScan_not_found {α : Type} (cmp : α → α → Bool) (K : Nat) (a : α) :
    ∀ ds : List (DistinctItem α), (∀ d ∈ ds, cmp d.item a = false) →
      icScan cmp K a ds
        = (ds ++ (icScan cmp K a []).1, (icScan cmp K a []).2) := by
  intro ds
  induction ds with
  | nil => intro _; simp
  | cons d ds ih =>
    intro hall
    have hd : cmp d.item a = false := hall d (List.mem_cons_self d ds)
    have hrest := ih (fun x hx => hall x (List.mem_cons_of_mem d hx))
    simp only [icScan, hd, Bool.false_eq_true, if_false, hrest]
    simp

theorem icScan_found {α : Type} (cmp : α → α → Bool) (K : Nat) (a : α)
    (d0 : DistinctItem α) (hd0 : cmp d0.item a = true) :
    ∀ ds1 : List (DistinctItem α), (∀ d ∈ ds1, cmp d.item a = false) →
    ∀ ds2 : List (DistinctItem α),
      icScan cmp K a (ds1 ++ d0 :: ds2)
        = (ds1 ++ ⟨d0.item, d0.count + 1,
              d0.emitted || decide (d0.count + 1 = K)⟩ :: ds2,
           if d0.emitted = false ∧ d0.count + 1 = K then [d0.item] else []) := by
  intro ds1
  induction ds1 with
  | nil =>
    intro _ ds2
    simp only [List.nil_append, icScan, hd0, if_true]
    by_cases hc : d0.emitted = false ∧ d0.count + 1 = K
    · rw [if_pos hc, if_pos hc]
      simp [hc.1, hc.2]
    · rw [if_neg hc, if_neg hc]
      cases hde : d0.emitted with
      | true => simp
      | false =>
        have hne : ¬ d0.count + 1 = K := by
          intro he
          exact hc ⟨hde, he⟩
        simp [hne]
  | cons d ds1 ih =>
    intro hall ds2
    have hd : cmp d.item a = false := hall d (List.mem_cons_self d ds1)
    have hrest := ih (fun x hx => hall x (List.mem_cons_of_mem d hx)) ds2
    simp only [List.cons_append, icScan, hd, Bool.false_eq_true, if_false,
      List.append_eq, hrest]

theorem icScan_nil_fst {α : Type} (cmp : α → α → Bool) (K : Nat) (a : α) :
    (icScan cmp K a []).1 = [⟨a, 1, decide (1 = K)⟩] := by
  by_cases h1 : 1 = K <;> simp [icScan, h1]

theorem icScan_nil_snd {α : Type} (cmp : α → α → Bool) (K : Nat) (a : α) :
    (icScan cmp K a []).2 = if 1 = K then [a] else [] := by
  by_cases h1 : 1 = K <;> simp [icScan, h1]

/-- Coupling invariant between the occurrence map of intersectByHash and the
distinctItems records of intersectByComparison, when the comparator equates
exactly the items with equal hash keys: every record stores the occurrence
count of its key so far, its emitted flag says whether that count has reached
K, every key with a positive count has a record, and no two records share a
key. -/
def IcInv {α κ : Type} [DecidableEq κ] (K : Nat) (h : α → κ) (m : κ → Nat)
    (ds : List (DistinctItem α)) : Prop :=
  (∀ d ∈ ds, m (h d.item) = d.count ∧ d.emitted = decide (K ≤ d.count)
      ∧ 0 < d.count) ∧
  (∀ k : κ, 0 < m k → ∃ d ∈ ds, h d.item = k) ∧
  ds.Pairwise (fun d e => h d.item ≠ h e.item)

theorem icScan_inv {α κ : Type} [DecidableEq κ] (K : Nat) (hK : 0 < K)
    (h : α → κ) (cmp : α → α → Bool)
    (hcmp : ∀ x y, cmp x y = decide (h x = h y))
    (m : κ → Nat) (ds : List (DistinctItem α)) (hinv : IcInv K h m ds)
    (a : α) :
    IcInv K h (fun k => if k = h a then m (h a) + 1 else m k)
        (icScan cmp K a ds).1 ∧
    (icScan cmp K a ds).2.map h = (if m (h a) + 1 = K then [h a] else []) := by
  obtain ⟨hrec, hcomp, hpw⟩ := hinv
  by_cases hzero : m (h a) = 0
  · have hnone : ∀ d ∈ ds, cmp d.item a = false := by
      intro d hd
      rw [hcmp]
      by_contra hc
      have hkey : h d.item = h a := by simpa using hc
      have h1 := (hrec d hd).1
      have h3 := (hrec d hd).2.2
      rw [hkey] at h1
      omega
    have hfst : (icScan cmp K a ds).1 = ds ++ [⟨a, 1, decide (1 = K)⟩] := by
      rw [icScan_not_found cmp K a ds hnone]
      simp [icScan_nil_fst]
    have hsnd : (icScan cmp K a ds).2 = (if 1 = K then [a] else []) := by
      rw [icScan_not_found cmp K a ds hnone]
      simp [icScan_nil_snd]
    rw [hfst, hsnd]
    constructor
    · refine ⟨?_, ?_, ?_⟩
      · intro d hd
        rcases List.mem_append.mp hd with hd | hd
        · have hkey : ¬ h d.item = h a := by
            have hc := hnone d hd
            rw [hcmp] at hc
            simpa using hc
          obtain ⟨h1, h2, h3⟩ := hrec d hd
          refine ⟨?_, h2, h3⟩
          show (if h d.item = h a then m (h a) + 1 else m (h d.item)) = d.count
          rw [if_neg hkey]
          exact h1
        · have hde : d = ⟨a, 1, decide (1 = K)⟩ := by simpa using hd
          subst hde
          refine ⟨?_, ?_, Nat.one_pos⟩
          · show (if h a = h a then m (h a) + 1 else m (h a)) = 1
            rw [if_pos rfl, hzero]
          · show decide (1 = K) = decide (K ≤ 1)
            by_cases h1 : 1 = K
            · simp [h1]
            · have h2 : ¬ K ≤ 1 := by omega
              simp [h1, h2]
      · intro k hk
        by_cases hka : k = h a
        · subst hka
          exact ⟨⟨a, 1, decide (1 = K)⟩,
            List.mem_append.mpr (Or.inr (by simp)), rfl⟩
        · have hk2 : 0 < if k = h a then m (h a) + 1 else m k := hk
          rw [if_neg hka] at hk2
          obtain ⟨d, hd, hdk⟩ := hcomp k hk2
          exact ⟨d, List.mem_append.mpr (Or.inl hd), hdk⟩
      · rw [List.pairwise_append]
        refine ⟨hpw, List.pairwise_singleton _ _, ?_⟩
        intro d hd e he
        have hee : e = ⟨a, 1, decide (1 = K)⟩ := by simpa using he
        subst hee
        have hc := hnone d hd
        rw [hcmp] at hc
        simpa using hc
    · by_cases h1 : 1 = K
      · have h2 : m (h a) + 1 = K := by omega
        rw [if_pos h1, if_pos h2]
        simp
      · have h2 : ¬ m (h a) + 1 = K := by omega
        rw [if_neg h1, if_neg h2]
        simp
  · have hpos : 0 < m (h a) := Nat.pos_of_ne_zero hzero
    obtain ⟨d0, hd0mem, hd0key⟩ := hcomp (h a) hpos
    obtain ⟨ds1, ds2, rfl⟩ := List.append_of_mem hd0mem
    have hpwparts := List.pairwise_append.mp hpw
    have hds1 : ∀ d ∈ ds1, cmp d.item a = false := by
      intro d hd
      rw [hcmp]
      have hne : h d.item ≠ h d0.item :=
        hpwparts.2.2 d hd d0 (List.mem_cons_self d0 ds2)
      rw [hd0key] at hne
      simpa using hne
    have hd0cmp : cmp d0.item a = true := by
      rw [hcmp]
      simp [hd0key]
    obtain ⟨hm0, hem0, hc0⟩ := hrec d0 hd0mem
    have hmc : m (h a) = d0.count := by
      rw [← hd0key]
      exact hm0
    rw [icScan_found cmp K a d0 hd0cmp ds1 hds1 ds2]
    constructor
    · refine ⟨?_, ?_, ?_⟩
      · intro d hd
        rcases List.mem_append.mp hd with hd | hd
        · have hne : h d.item ≠ h a := by
            have hp := hpwparts.2.2 d hd d0 (List.mem_cons_self d0 ds2)
            rw [hd0key] at hp
            exact hp
          obtain ⟨h1, h2, h3⟩ := hrec d (List.mem_append.mpr (Or.inl hd))
          refine ⟨?_, h2, h3⟩
          show (if h d.item = h a then m (h a) + 1 else m (h d.item)) = d.count
          rw [if_neg hne]
          exact h1
        · rcases List.mem_cons.mp hd with hd | hd
          · subst hd
            refine ⟨?_, ?_, Nat.succ_pos d0.count⟩
            · show (if h d0.item = h a then m (h a) + 1 else m (h d0.item))
                = d0.count + 1
              rw [if_pos hd0key, hmc]
            · show (d0.emitted || decide (d0.count + 1 = K))
                = decide (K ≤ d0.count + 1)
              rw [hem0]
              by_cases hle : K ≤ d0.count + 1
              · have h4 : K ≤ d0.count ∨ d0.count + 1 = K := by omega
                rcases h4 with h4 | h4 <;> simp [h4, hle]
              · have h4 : ¬ K ≤ d0.count := by omega
                have h5 : ¬ d0.count + 1 = K := by omega
                simp [h4, h5, hle]
          · have hp := (List.pairwise_cons.mp hpwparts.2.1).1 d hd
            have hne : h d.item ≠ h a := by
              rw [← hd0key]
              exact fun he => hp he.symm
            obtain ⟨h1, h2, h3⟩ := hrec d
              (List.mem_append.mpr (Or.inr (List.mem_cons_of_mem d0 hd)))
            refine ⟨?_, h2, h3⟩
            show (if h d.item = h a then m (h a) + 1 else m (h d.item)) = d.count
            rw [if_neg hne]
            exact h1
      · intro k hk
        by_cases hka : k = h a
        · subst hka
          refine ⟨⟨d0.item, d0.count + 1, d0.emitted
              || decide (d0.count + 1 = K)⟩, ?_, hd0key⟩
          exact List.mem_append.mpr (Or.inr (List.mem_cons_self _ _))
        · have hk2 : 0 < if k = h a then m (h a) + 1 else m k := hk
          rw [if_neg hka] at hk2
          obtain ⟨d, hd, hdk⟩ := hcomp k hk2
          rcases List.mem_append.mp hd with h1 | h1
          · exact ⟨d, List.mem_append.mpr (Or.inl h1), hdk⟩
          · rcases List.mem_cons.mp h1 with h1 | h1
            · subst h1
              exact ⟨⟨d.item, d.count + 1, d.emitted
                  || decide (d.count + 1 = K)⟩,
                List.mem_append.mpr (Or.inr (List.mem_cons_self _ _)), hdk⟩
            · exact ⟨d,
                List.mem_append.mpr (Or.inr (List.mem_cons_of_mem _ h1)), hdk⟩
      · rw [List.pairwise_append]
        obtain ⟨hp1, hp2, hp3⟩ := hpwparts
        rw [List.pairwise_cons] at hp2 ⊢
        obtain ⟨hp2a, hp2b⟩ := hp2
        refine ⟨hp1, ⟨fun e he => hp2a e he, hp2b⟩, ?_⟩
        intro x hx y hy
        rcases List.mem_cons.mp hy with hy | hy
        · subst hy
          exact hp3 x hx d0 (List.mem_cons_self d0 ds2)
        · exact hp3 x hx y (List.mem_cons_of_mem _ hy)
    · by_cases h2 : d0.count + 1 = K
      · have hcond : d0.emitted = false ∧ d0.count + 1 = K := by
          refine ⟨?_, h2⟩
          rw [hem0]
          have : ¬ K ≤ d0.count := by omega
          simp [this]
        rw [if_pos hcond]
        have h3 : m (h a) + 1 = K := by omega
        simp [h3, hd0key]
      · have hcond : ¬ (d0.emitted = false ∧ d0.count + 1 = K) :=
          fun hc => h2 hc.2
        rw [if_neg hcond]
        have h3 : ¬ m (h a) + 1 = K := by omega
        simp [h3]

theorem IcInv_init {α κ : Type} [DecidableEq κ] (K : Nat) (h : α → κ) :
    IcInv K h (fun _ => 0) ([] : List (DistinctItem α)) := by
  refine ⟨?_, ?_, List.Pairwise.nil⟩
  · intro d hd
    cases hd
  · intro k hk
    have hk2 : (0 : Nat) < 0 := hk
    omega

theorem icGo_map_eq {α κ : Type} [DecidableEq κ] (K : Nat) (hK : 0 < K)
    (h : α → κ) (cmp : α → α → Bool)
    (hcmp : ∀ x y, cmp x y = decide (h x = h y)) :
    ∀ (arr : List α) (m : κ → Nat) (ds : List (DistinctItem α)),
      IcInv K h m ds →
      (icGo cmp K ds arr).map h = (ihGo K h m arr).map h := by
  intro arr
  induction arr with
  | nil => intro m ds _; rfl
  | cons a rest ih =>
    intro m ds hinv
    obtain ⟨hinv2, hemit⟩ := icScan_inv K hK h cmp hcmp m ds hinv a
    simp only [icGo, ihGo, List.map_append]
    rw [hemit, ih _ _ hinv2]
    have he : ((if m (h a) + 1 = K then [a] else []).map h)
        = (if m (h a) + 1 = K then [h a] else []) := by
      by_cases h1 : m (h a) + 1 = K <;> simp [h1]
    rw [he]

theorem done_mem_emits_append {α ε : Type} (l : List α) (t : List (Ev α ε)) :
    ((Ev.done (α := α) (ε := ε)) ∈ l.map Ev.emit ++ t) ↔ Ev.done ∈ t := by
  rw [List.mem_append]
  constructor
  · rintro (hmem | hmem)
    · exfalso
      rcases List.mem_map.mp hmem with ⟨x, _, he⟩
      exact Ev.noConfusion he
    · exact hmem
  · exact Or.inr

/-- C8: when the comparator equates exactly the items with equal hash keys,
intersectByComparison emits, position by position, items with the same hash
keys as intersectByHash over the same arrival sequence — so both variants
yield the same result set modulo the shared equality, each common key emitted
exactly once — and both output Streams complete under the same condition, all
inputs having completed. -/
theorem intersect_variants_agree {α κ ε : Type} [DecidableEq κ] (h : α → κ)
    (cmp : α → α → Bool) (hcmp : ∀ x y, cmp x y = decide (h x = h y))
    (inputs : List (GInput α)) (arrivals : List α)
    (hK : 0 < inputs.length) :
    (icEmits cmp inputs.length arrivals).map h
        = (ihEmits inputs.length h arrivals).map h ∧
    (∀ k : κ, keyCount h k (icEmits cmp inputs.length arrivals)
        = if inputs.length ≤ keyCount h k arrivals then 1 else 0) ∧
    ((Ev.done (α := α) (ε := ε)) ∈ icOut cmp inputs arrivals
      ↔ (Ev.done (α := α) (ε := ε)) ∈ ihOut h inputs arrivals) := by
  have hmap : (icEmits cmp inputs.length arrivals).map h
      = (ihEmits inputs.length h arrivals).map h :=
    icGo_map_eq inputs.length hK h cmp hcmp arrivals (fun _ => 0) []
      (IcInv_init inputs.length h)
  refine ⟨hmap, ?_, ?_⟩
  · intro k
    have hic : keyCount h k (icEmits cmp inputs.length arrivals)
        = ((icEmits cmp inputs.length arrivals).map h).countP
            (fun x => decide (x = k)) := by
      rw [List.countP_map]
      rfl
    have hih : keyCount h k (ihEmits inputs.length h arrivals)
        = ((ihEmits inputs.length h arrivals).map h).countP
            (fun x => decide (x = k)) := by
      rw [List.countP_map]
      rfl
    rw [hic, hmap, ← hih, ihEmits_keyCount]
    split_ifs with h1 h2 <;> simp_all
  · rw [icOut, ihOut, done_mem_emits_append, done_mem_emits_append]

/-- C8, witness: the specification's example inputs, with the identity hasher
and equality as the comparator, make the two intersection variants produce
hash-identical emission lists. -/
theorem intersect_variants_agree_witness :
    (icEmits (fun a b : Nat => decide (a = b)) 2
        [6, 1, 2, 3, 2, 3, 5, 6]).map (fun a : Nat => a)
      = (ihEmits 2 (fun a : Nat => a) [6, 1, 2, 3, 2, 3, 5, 6]).map
          (fun a : Nat => a) ∧
    (icEmits (fun a b : Nat => decide (a = b)) 2
        [6, 1, 2, 3, 2, 3, 5, 6]).map (fun a : Nat => a) = [2, 3, 6] := by
  have h := intersect_variants_agree (ε := String) (fun a : Nat => a)
    (fun a b : Nat => decide (a = b)) (fun x y => rfl)
    [⟨[6, 1, 2, 3], true⟩, ⟨[2, 3, 5, 6], true⟩]
    [6, 1, 2, 3, 2, 3, 5, 6] (by decide)
  exact ⟨h.1, by decide⟩

/-- C1, witness: the array [1, 2, 3] with a non-cancelling listener emits
1, 2, 3 in order, completes exactly once, and emits nothing afterwards. -/
theorem array_construct_witness :
    emittedItems (arrayRun (ε := String) [1, 2, 3] (fun _ => false))
        = [1, 2, 3] ∧
    (arrayRun (ε := String) [1, 2, 3] (fun _ => false)).countP Ev.isDone = 1 ∧
    emittedItems (afterFirstDone
        (arrayRun (ε := String) [1, 2, 3] (fun _ => false))) = [] :=
  array_construct_emits_in_order_then_completes [1, 2, 3] (fun _ => false)

/-- C2, witness: the timing facts instantiated at the producer that emits 0
and completes. -/
theorem deferred_dispatch_witness :
    (generatorJsTiming (ε := String) [Cmd.emit (0 : Nat), Cmd.done]).producerTick
        = 1 ∧
    (∀ t ∈ (generatorJsTiming (ε := String)
        [Cmd.emit (0 : Nat), Cmd.done]).dispatchTicks,
      t = (generatorJsTiming (ε := String)
        [Cmd.emit (0 : Nat), Cmd.done]).producerTick) ∧
    (part001Timing (ε := String) [Cmd.emit (0 : Nat), Cmd.done]).producerTick
        = 0 ∧
    (∀ t ∈ (part001Timing (ε := String)
        [Cmd.emit (0 : Nat), Cmd.done]).dispatchTicks, t = 1) ∧
    (∀ t ∈ (part001Timing (ε := String)
        [Cmd.emit (0 : Nat), Cmd.done]).dispatchTicks, 0 < t) ∧
    (∀ t ∈ (generatorJsTiming (ε := String)
        [Cmd.emit (0 : Nat), Cmd.done]).dispatchTicks, 0 < t) :=
  deferred_dispatch_after_registration [Cmd.emit (0 : Nat), Cmd.done]

/-- C4, witness: a producer that rejects with boom, emits 1, throws oops and
then calls done.  The fault listeners receive exactly the rejection, the
thrown value escapes as the uncaught exception, and the done call after the
throw never runs. -/
theorem producer_routing_witness :
    faultErrors ((runProducer [Cmd.reject "boom", Cmd.emit (1 : Nat),
        Cmd.throwErr "oops", Cmd.done]).1) = ["boom"] ∧
    (runProducer [Cmd.reject "boom", Cmd.emit (1 : Nat),
        Cmd.throwErr "oops", Cmd.done]).2 = some "oops" := by
  have h := producer_routing [Cmd.reject "boom", Cmd.emit (1 : Nat),
    Cmd.throwErr "oops", Cmd.done]
  exact ⟨h.1.trans (by decide), h.2.2.2.trans (by decide)⟩

end ES5Gen
